import Mathlib

/-!
Verification of the match-driven scanning and template-substitution engine of
the wrapp/go-pcre repository (package regexp, files built on the external PCRE
matcher).

The external matcher (the cgo PCRE binding) is modelled as an abstract
structure PCRE whose exec field stands for pcre.Exec: given the subject
bytes, a start offset, the NotEmptyAtStart option bit and the requested
ovector size, it reports either no-match (PCRE_ERROR_NOMATCH, -1), another
negative error code, or success together with the filled ovector.  Subjects,
byte slices and Go strings are lists of byte values (Nat); offsets kept by
the scanners are Int, exactly as the Go code keeps them in int variables.

The scanning loops of FindAllIndex and FindAllSubmatchIndex are modelled with
an explicit fuel argument because, for a completely arbitrary matcher, the Go
loops need not terminate; a result of none means the fuel ran out, while
some (Except.error e) models the log.Panicf abort on a matcher error e and
some (Except.ok locs) a normal return.  Theorems about termination state that
from some fuel on the result is a fixed some-value.
-/

/-- Outcome of one call to the external matcher, standing for the return
value of pcre.Exec together with the ovector it filled. -/
inductive ExecResult where
  | noMatch : ExecResult
  | err : Int → ExecResult
  | ok : List Int → ExecResult
deriving DecidableEq, Repr

/-- Abstract model of a compiled PCRE pattern: the capability the external
MatchEngine exposes (exec, captureCount, nameTable).  The Bool argument of
exec is the NotEmptyAtStart option bit, the only option the scanners ever
set; the final Nat is the length of the ovector passed in. -/
structure PCRE where
  exec : List Nat → Int → Bool → Nat → ExecResult
  captureCount : Nat
  nameTable : List (List Nat)

/-- Model of the regexp.Regexp wrapper: it carries the compiled pattern. -/
structure Regexp where
  pcre : PCRE

/-- SubExpNames returns the name table of the compiled pattern. -/
def Regexp.SubExpNames (re : Regexp) : List (List Nat) :=
  re.pcre.nameTable

/-- Go slice src[a:b] for byte slices (valid when 0 <= a <= b <= len src). -/
def goSlice (src : List Nat) (a b : Int) : List Nat :=
  (src.take b.toNat).drop a.toNat

/-- Go slice src[a:] for byte slices (valid when 0 <= a <= len src). -/
def goSliceFrom (src : List Nat) (a : Int) : List Nat :=
  src.drop a.toNat

/-- Loop of Regexp.FindAllIndex: starting from the given cursor, option bit
and accumulated records, repeatedly call the matcher with an ovector of size
3, stop on no-match, abort on any other matcher error, otherwise append the
pair oVector[0], oVector[1], set NotEmptyAtStart, move the cursor to
oVector[1] and decrement the budget n. -/
def findAllIndexAux (re : Regexp) (b : List Nat) :
    Nat → Int → Int → Bool → List (List Int) →
    Option (Except Int (List (List Int)))
  | 0, _, _, _, _ => none
  | fuel + 1, start, n, options, locs =>
    if start ≤ (b.length : Int) ∧ n ≠ 0 then
      match re.pcre.exec b start options 3 with
      | ExecResult.noMatch => some (Except.ok locs)
      | ExecResult.err e => some (Except.error e)
      | ExecResult.ok oVector =>
        findAllIndexAux re b fuel (oVector.getD 1 0) (n - 1) true
          (locs ++ [[oVector.getD 0 0, oVector.getD 1 0]])
    else some (Except.ok locs)

/-- Regexp.FindAllIndex with an explicit fuel bound on the loop. -/
def FindAllIndex (fuel : Nat) (re : Regexp) (b : List Nat) (n : Int) :
    Option (Except Int (List (List Int))) :=
  findAllIndexAux re b fuel 0 n false []

/-- Loop of Regexp.FindAllSubmatchIndex: same driver as findAllIndexAux but
the ovector has size (1+captureCount)*3 and the whole prefix of length
(1+captureCount)*2 is recorded. -/
def findAllSubmatchIndexAux (re : Regexp) (b : List Nat) :
    Nat → Int → Int → Bool → List (List Int) →
    Option (Except Int (List (List Int)))
  | 0, _, _, _, _ => none
  | fuel + 1, start, n, options, locs =>
    if start ≤ (b.length : Int) ∧ n ≠ 0 then
      match re.pcre.exec b start options ((1 + re.pcre.captureCount) * 3) with
      | ExecResult.noMatch => some (Except.ok locs)
      | ExecResult.err e => some (Except.error e)
      | ExecResult.ok oVector =>
        findAllSubmatchIndexAux re b fuel (oVector.getD 1 0) (n - 1) true
          (locs ++ [oVector.take ((1 + re.pcre.captureCount) * 2)])
    else some (Except.ok locs)

/-- Regexp.FindAllSubmatchIndex with an explicit fuel bound on the loop. -/
def FindAllSubmatchIndex (fuel : Nat) (re : Regexp) (b : List Nat) (n : Int) :
    Option (Except Int (List (List Int))) :=
  findAllSubmatchIndexAux re b fuel 0 n false []

/-- Modelled from the spec: a matcher for a pattern that matches the empty
string, and only the empty string, at every position of the subject.  Without
NotEmptyAtStart it reports the empty match at the start offset; with
NotEmptyAtStart the empty match at the start offset is rejected, so the
engine reports the empty match at the next position when one exists and
no-match otherwise (the flag, per section 4.1 of the spec, requires the next
match not to be empty at the position the previous match just vacated).  The
returned ovector is padded with zeros to the requested size. -/
def emptyPCRE : PCRE where
  exec := fun b start notEmptyAtStart size =>
    if notEmptyAtStart then
      if start + 1 ≤ (b.length : Int) then
        ExecResult.ok (([start + 1, start + 1] ++ List.replicate (size - 2) 0).take size)
      else ExecResult.noMatch
    else
      ExecResult.ok (([start, start] ++ List.replicate (size - 2) 0).take size)
  captureCount := 0
  nameTable := [[]]

/-- A matcher that always reports the same non-no-match error. -/
def errPCRE (e : Int) : PCRE where
  exec := fun _ _ _ _ => ExecResult.err e
  captureCount := 0
  nameTable := [[]]

/-- A matcher that never matches. -/
def noMatchPCRE : PCRE where
  exec := fun _ _ _ _ => ExecResult.noMatch
  captureCount := 0
  nameTable := [[]]

/-- The expected scan result for a pattern that matches empty everywhere:
one zero-width record at every offset 0..len. -/
def zeroWidthAll (len : Nat) : List (List Int) :=
  (List.range (len + 1)).map (fun (k : Nat) => ([(k : Int), (k : Int)] : List Int))

/-- Abstract model of the external Unicode classifier used by extract: the
unicode.IsLetter and unicode.IsDigit predicates of the Go standard library,
applied to decoded rune values. -/
structure UnicodeClasses where
  isLetter : Nat → Bool
  isDigit : Nat → Bool

/-- A rune may continue a reference name when it is a letter, a digit or an
underscore; extract stops scanning at the first rune that is none of these. -/
def identRune (U : UnicodeClasses) (r : Nat) : Bool :=
  U.isLetter r || U.isDigit r || r == 95

/-- Instance of the classifier that recognises exactly the ASCII letters and
digits; used to run the model on concrete inputs. -/
def asciiU : UnicodeClasses where
  isLetter := fun r => decide ((65 ≤ r ∧ r ≤ 90) ∨ (97 ≤ r ∧ r ≤ 122))
  isDigit := fun r => decide (48 ≤ r ∧ r ≤ 57)

/-- Model of utf8.DecodeRuneInString on a byte list: returns the decoded rune
and the number of bytes consumed.  Invalid encodings decode to the
replacement rune 0xFFFD with size 1; the empty string gives size 0. -/
def decodeRune : List Nat → Nat × Nat
  | [] => (0xFFFD, 0)
  | c0 :: rest =>
    if c0 < 0x80 then (c0, 1)
    else
      let sz : Nat :=
        if 0xC2 ≤ c0 ∧ c0 ≤ 0xDF then 2
        else if 0xE0 ≤ c0 ∧ c0 ≤ 0xEF then 3
        else if 0xF0 ≤ c0 ∧ c0 ≤ 0xF4 then 4
        else 0
      if sz = 0 then (0xFFFD, 1)
      else
        match rest with
        | [] => (0xFFFD, 1)
        | b1 :: rest1 =>
          let lo : Nat := if c0 = 0xE0 then 0xA0 else if c0 = 0xF0 then 0x90 else 0x80
          let hi : Nat := if c0 = 0xED then 0x9F else if c0 = 0xF4 then 0x8F else 0xBF
          if b1 < lo ∨ hi < b1 then (0xFFFD, 1)
          else if sz = 2 then ((c0 % 0x20) * 0x40 + b1 % 0x40, 2)
          else
            match rest1 with
            | [] => (0xFFFD, 1)
            | b2 :: rest2 =>
              if b2 < 0x80 ∨ 0xBF < b2 then (0xFFFD, 1)
              else if sz = 3 then
                ((c0 % 0x10) * 0x1000 + (b1 % 0x40) * 0x40 + b2 % 0x40, 3)
              else
                match rest2 with
                | [] => (0xFFFD, 1)
                | b3 :: _ =>
                  if b3 < 0x80 ∨ 0xBF < b3 then (0xFFFD, 1)
                  else
                    ((c0 % 8) * 0x40000 + (b1 % 0x40) * 0x1000 +
                      (b2 % 0x40) * 0x40 + b3 % 0x40, 4)


set_option maxHeartbeats 1000000 in
/-- On a nonempty byte list the decoder always consumes at least one byte. -/
theorem decodeRune_snd_pos (c : Nat) (rest : List Nat) :
    1 ≤ (decodeRune (c :: rest)).2 := by
  by_cases hc : c < 0x80
  · simp [decodeRune, hc]
  · rcases rest with _ | ⟨b1, _ | ⟨b2, _ | ⟨b3, rest3⟩⟩⟩ <;>
      simp only [decodeRune, if_neg hc] <;> split_ifs <;> simp

/-- The scanning loop of extract: the length in bytes of the longest prefix
of str made of runes that may appear in a reference name (the loop that
advances i by the size of each decoded rune until a non-name rune). -/
def identSpan (U : UnicodeClasses) : List Nat → Nat
  | [] => 0
  | c :: rest =>
    let d := decodeRune (c :: rest)
    if identRune U d.1 then d.2 + identSpan U ((c :: rest).drop d.2) else 0
termination_by s => s.length
decreasing_by
  simp only [List.length_drop, List.length_cons]
  exact Nat.sub_lt (Nat.succ_pos _) (decodeRune_snd_pos _ _)

/-- The number-parsing loop of extract (lines 104 to 111 of the source): fold
the decimal digits of name into num, giving up with -1 at the first byte that
is not an ASCII digit or as soon as num has reached 100000000. -/
def parseNumLoop : List Nat → Int → Int
  | [], num => num
  | c :: rest, num =>
    if c < 48 ∨ 57 < c ∨ 100000000 ≤ num then -1
    else parseNumLoop rest (num * 10 + ((c : Int) - 48))

/-- The number interpretation of a reference name: the digit-folding loop
followed by the leading-zero rejection (lines 103 to 115 of the source). -/
def parseNum (name : List Nat) : Int :=
  let num := parseNumLoop name 0
  if name.getD 0 0 = 48 ∧ 1 < name.length then -1 else num

/-- Model of extract: from a leading reference of the template (dollar-name
or dollar-brace-name form) return the name, its number interpretation (minus
one when the name is not numeric) and the remaining template, or none when
the reference is malformed. -/
def extract (U : UnicodeClasses) (str : List Nat) : Option (List Nat × Int × List Nat) :=
  if str.length < 2 ∨ str.getD 0 0 ≠ 36 then none
  else
    let brace := str.getD 1 0 = 123
    let str1 := if brace then str.drop 2 else str.drop 1
    let i := identSpan U str1
    if i = 0 then none
    else
      let name := str1.take i
      if brace then
        if str1.length ≤ i ∨ str1.getD i 0 ≠ 125 then none
        else some (name, parseNum name, str1.drop (i + 1))
      else some (name, parseNum name, str1.drop i)

/-- A successful extract consumes at least two bytes of the template. -/
theorem extract_some_len {U : UnicodeClasses} {s name : List Nat} {num : Int}
    {rest : List Nat} (h : extract U s = some (name, num, rest)) :
    rest.length + 2 ≤ s.length := by
  unfold extract at h
  by_cases h0 : s.length < 2 ∨ s.getD 0 0 ≠ 36
  · rw [if_pos h0] at h; exact absurd h (by simp)
  rw [if_neg h0] at h
  rw [not_or, not_lt] at h0
  obtain ⟨hlen2, -⟩ := h0
  dsimp only at h
  by_cases hb : s.getD 1 0 = 123
  · simp only [if_pos hb] at h
    split at h
    · exact absurd h (by simp)
    split at h
    · exact absurd h (by simp)
    simp only [Option.some.injEq, Prod.mk.injEq] at h
    obtain ⟨-, -, hrest⟩ := h
    subst hrest
    simp only [List.length_drop]
    omega
  · simp only [if_neg hb] at h
    split at h
    · exact absurd h (by simp)
    rename_i hi
    simp only [Option.some.injEq, Prod.mk.injEq] at h
    obtain ⟨-, -, hrest⟩ := h
    subst hrest
    simp only [List.length_drop]
    omega

/-- Model of strings.Index(template, dollar): the offset of the first dollar
byte, or none when there is none. -/
def indexOfByte (x : Nat) : List Nat → Option Nat
  | [] => none
  | c :: rest => if c = x then some 0 else (indexOfByte x rest).map (· + 1)

/-- A found index is a valid offset into the list. -/
theorem indexOfByte_lt {x : Nat} {l : List Nat} {i : Nat}
    (h : indexOfByte x l = some i) : i < l.length := by
  induction l generalizing i with
  | nil => simp [indexOfByte] at h
  | cons c rest ih =>
    rw [indexOfByte] at h
    split at h
    · simp only [Option.some.injEq] at h
      subst h
      simp
    · cases hr : indexOfByte x rest with
      | none => rw [hr] at h; exact absurd h (by simp)
      | some j =>
        rw [hr] at h
        simp only [Option.map_some', Option.some.injEq] at h
        subst h
        have := ih hr
        simp only [List.length_cons]
        omega

/-- The name-lookup loop inside expand (lines 58 to 63 of the source): walk
the name table in ascending index order and return the first index whose
name equals the reference and whose pair both fits the match record and has
a nonnegative start; none when no entry qualifies. -/
def nameLookupFrom (m : List Int) (name : List Nat) :
    List (List Nat) → Nat → Option Nat
  | [], _ => none
  | namei :: restNames, i =>
    if name = namei ∧ 2 * i + 1 < m.length ∧ 0 ≤ m.getD (2 * i) 0 then some i
    else nameLookupFrom m name restNames (i + 1)

/-- The reference-resolution step of expand (lines 53 to 64 of the source):
a nonnegative num is a positional reference, anything else is looked up by
name; a failed resolution leaves dst unchanged. -/
def resolveRef (re : Regexp) (dst src : List Nat) (m : List Int)
    (name : List Nat) (num : Int) : List Nat :=
  if 0 ≤ num then
    if 2 * num.toNat + 1 < m.length ∧ 0 ≤ m.getD (2 * num.toNat) 0 then
      dst ++ goSlice src (m.getD (2 * num.toNat) 0) (m.getD (2 * num.toNat + 1) 0)
    else dst
  else
    match nameLookupFrom m name re.SubExpNames 0 with
    | some i => dst ++ goSlice src (m.getD (2 * i) 0) (m.getD (2 * i + 1) 0)
    | none => dst

/-- Model of the private expand method: copy the template up to the next
dollar, handle a double dollar as one literal dollar, treat a malformed
reference as a literal dollar resuming right after it, otherwise resolve the
extracted reference; at the end flush the dollar-free tail. -/
def expand (U : UnicodeClasses) (re : Regexp) (dst template src : List Nat)
    (m : List Int) : List Nat :=
  match hidx : indexOfByte 36 template with
  | none => dst ++ template
  | some i =>
    let dst1 := dst ++ template.take i
    let t1 := template.drop i
    if 1 < t1.length ∧ t1.getD 1 0 = 36 then
      expand U re (dst1 ++ [36]) (t1.drop 2) src m
    else
      match hex : extract U t1 with
      | none => expand U re (dst1 ++ [36]) (t1.drop 1) src m
      | some (name, num, rest) =>
        expand U re (resolveRef re dst1 src m name num) rest src m
termination_by template.length
decreasing_by
  · have hi := indexOfByte_lt hidx
    simp only [List.length_drop]
    omega
  · have hi := indexOfByte_lt hidx
    simp only [List.length_drop]
    omega
  · have hi := indexOfByte_lt hidx
    have hr := extract_some_len hex
    unfold t1 at hr
    simp only [List.length_drop] at hr
    omega

/-- The splicing loop of the private replaceAll driver: for each match record
append the literal gap and then the replacement output, finally flush the
tail after the last match. -/
def replaceLoop (original : List Nat) (repl : List Nat → List Int → List Nat) :
    List (List Int) → Int → List Nat → List Nat
  | [], srci, dst =>
    if srci < (original.length : Int) then dst ++ goSliceFrom original srci else dst
  | loc :: restLocs, srci, dst =>
    replaceLoop original repl restLocs (loc.getD 1 0)
      (repl (dst ++ goSlice original srci (loc.getD 0 0)) loc)

/-- Model of the private replaceAll driver: enumerate all matches with
FindAllSubmatchIndex at unbounded budget, then splice the caller-supplied
replacement between the literal gaps; a matcher abort propagates. -/
def replaceAll (fuel : Nat) (re : Regexp) (original : List Nat)
    (replacement : List Nat → List Int → List Nat) :
    Option (Except Int (List Nat)) :=
  match FindAllSubmatchIndex fuel re original (-1) with
  | none => none
  | some (Except.error e) => some (Except.error e)
  | some (Except.ok locs) => some (Except.ok (replaceLoop original replacement locs 0 []))

/-- Regexp.ReplaceAll: replace every match by the expansion of the template
repl against that match. -/
def ReplaceAll (U : UnicodeClasses) (fuel : Nat) (re : Regexp)
    (src repl : List Nat) : Option (Except Int (List Nat)) :=
  replaceAll fuel re src (fun dst m => expand U re dst repl src m)

/-- Regexp.ReplaceAllLiteral: replace every match by fixed bytes. -/
def ReplaceAllLiteral (fuel : Nat) (re : Regexp)
    (original replacement : List Nat) : Option (Except Int (List Nat)) :=
  replaceAll fuel re original (fun dst _ => dst ++ replacement)

/-- Regexp.ReplaceAllFunc: replace every match by a function of the matched
bytes. -/
def ReplaceAllFunc (fuel : Nat) (re : Regexp) (original : List Nat)
    (replacement : List Nat → List Nat) : Option (Except Int (List Nat)) :=
  replaceAll fuel re original
    (fun dst m => dst ++ replacement (goSlice original (m.getD 0 0) (m.getD 1 0)))

/-- Model of a Go string value: a sequence of bytes distinguished from a
byte slice only by its type, since the Go conversions between string and
byte slice preserve the bytes exactly. -/
structure GoString where
  data : List Nat
deriving DecidableEq, Repr

/-- The Go conversion string(x) applied to the result of a byte-buffer
operation: errors and fuel exhaustion pass through, bytes are wrapped. -/
def stringifyResult : Option (Except Int (List Nat)) → Option (Except Int GoString)
  | none => none
  | some (Except.error e) => some (Except.error e)
  | some (Except.ok bs) => some (Except.ok ⟨bs⟩)

/-- Regexp.ReplaceAllString: the string form of ReplaceAll, defined exactly
as string applied to ReplaceAll of the byte conversions. -/
def ReplaceAllString (U : UnicodeClasses) (fuel : Nat) (re : Regexp)
    (original replacement : GoString) : Option (Except Int GoString) :=
  stringifyResult (ReplaceAll U fuel re original.data replacement.data)

/-- Regexp.ReplaceAllLiteralString: the string form of ReplaceAllLiteral. -/
def ReplaceAllLiteralString (fuel : Nat) (re : Regexp)
    (original replacement : GoString) : Option (Except Int GoString) :=
  stringifyResult (ReplaceAllLiteral fuel re original.data replacement.data)

/-- Regexp.ReplaceAllStringFunc: the string form of the callback replacer;
the callback receives the matched bytes of the original string as a Go
string. -/
def ReplaceAllStringFunc (fuel : Nat) (re : Regexp) (original : GoString)
    (replacement : GoString → GoString) : Option (Except Int GoString) :=
  stringifyResult (replaceAll fuel re original.data
    (fun dst m =>
      dst ++ (replacement ⟨goSlice original.data (m.getD 0 0) (m.getD 1 0)⟩).data))

/-- Model of the public Expand method of the source: its body is
panic with the message TODO, modelled as an error result carrying that
message; it never renders the template. -/
def Expand (re : Regexp) (dst template src : List Nat) (m : List Int) :
    Except String (List Nat) :=
  Except.error "TODO"

/-- Model of ExpandString: it converts its string arguments to byte slices
and delegates to Expand. -/
def ExpandString (re : Regexp) (dst : List Nat) (template src : GoString)
    (m : List Int) : Except String (List Nat) :=
  Expand re dst template.data src.data m

/-- Unfolding lemma: on the empty template expand returns dst unchanged. -/
theorem expand_nil (U : UnicodeClasses) (re : Regexp) (dst src : List Nat)
    (m : List Int) : expand U re dst [] src m = dst := by
  rw [expand.eq_def]
  simp [indexOfByte]

/-- Unfolding lemma: with no dollar in the template, expand flushes it. -/
theorem expand_no_dollar (U : UnicodeClasses) (re : Regexp) (dst tpl src : List Nat)
    (m : List Int) (h : indexOfByte 36 tpl = none) :
    expand U re dst tpl src m = dst ++ tpl := by
  rw [expand.eq_def]
  split
  · rfl
  · rename_i i hidx
    rw [h] at hidx
    exact absurd hidx (by simp)

/-- Unfolding lemma: a leading byte other than the dollar is copied verbatim
and scanning continues on the tail. -/
theorem expand_literal_cons (U : UnicodeClasses) (re : Regexp) (dst : List Nat)
    (c : Nat) (t src : List Nat) (m : List Int) (hc : c ≠ 36) :
    expand U re dst (c :: t) src m = expand U re (dst ++ [c]) t src m := by
  have h1 : indexOfByte 36 (c :: t) = (indexOfByte 36 t).map (· + 1) := by
    simp [indexOfByte, hc]
  cases hio : indexOfByte 36 t with
  | none =>
    rw [expand_no_dollar U re (dst ++ [c]) t src m hio]
    rw [expand.eq_def]
    split
    · simp
    · rename_i i hidx
      rw [h1, hio] at hidx
      exact absurd hidx (by simp)
  | some j =>
    rw [expand.eq_def]
    split
    · rename_i hidx
      rw [h1, hio] at hidx
      exact absurd hidx (by simp)
    · rename_i i hidx
      rw [h1, hio] at hidx
      simp only [Option.map_some', Option.some.injEq] at hidx
      subst hidx
      conv_rhs => rw [expand.eq_def]
      split
      · rename_i hidx2
        rw [hio] at hidx2
        exact absurd hidx2 (by simp)
      · rename_i i2 hidx2
        rw [hio] at hidx2
        simp only [Option.some.injEq] at hidx2
        subst hidx2
        simp [List.take_succ_cons, List.drop_succ_cons, List.append_assoc]

/-- Unfolding lemma: a double dollar emits one literal dollar and scanning
resumes after both dollars. -/
theorem expand_dollar_dollar (U : UnicodeClasses) (re : Regexp) (dst t src : List Nat)
    (m : List Int) :
    expand U re dst (36 :: 36 :: t) src m = expand U re (dst ++ [36]) t src m := by
  rw [expand.eq_def]
  split
  · rename_i hidx
    simp [indexOfByte] at hidx
  · rename_i i hidx
    have : i = 0 := by simp [indexOfByte] at hidx; omega
    subst this
    simp

/-- Unfolding lemma: a dollar whose reference fails to extract emits one
literal dollar and scanning resumes at the very next byte. -/
theorem expand_malformed (U : UnicodeClasses) (re : Regexp) (dst t src : List Nat)
    (m : List Int) (h36 : t.getD 0 0 ≠ 36) (hex : extract U (36 :: t) = none) :
    expand U re dst (36 :: t) src m = expand U re (dst ++ [36]) t src m := by
  rw [expand.eq_def]
  split
  · rename_i hidx
    simp [indexOfByte] at hidx
  · rename_i i hidx
    have : i = 0 := by simp [indexOfByte] at hidx; omega
    subst this
    simp only [List.take_zero, List.append_nil, List.drop_zero]
    rw [if_neg]
    · split
      · simp
      · rename_i name num rest hex2
        rw [hex] at hex2
        exact absurd hex2 (by simp)
    · rintro ⟨-, hg⟩
      rw [List.getD_cons_succ] at hg
      exact h36 hg

/-- Unfolding lemma: a dollar whose reference extracts successfully is
replaced by the resolution of that reference and scanning resumes on the
rest returned by extract. -/
theorem expand_ref (U : UnicodeClasses) (re : Regexp) (dst t src : List Nat)
    (m : List Int) (name : List Nat) (num : Int) (rest : List Nat)
    (h36 : t.getD 0 0 ≠ 36)
    (hex : extract U (36 :: t) = some (name, num, rest)) :
    expand U re dst (36 :: t) src m =
      expand U re (resolveRef re dst src m name num) rest src m := by
  rw [expand.eq_def]
  split
  · rename_i hidx
    simp [indexOfByte] at hidx
  · rename_i i hidx
    have : i = 0 := by simp [indexOfByte] at hidx; omega
    subst this
    simp only [List.take_zero, List.append_nil, List.drop_zero]
    rw [if_neg]
    · split
      · rename_i hex2
        rw [hex] at hex2
        exact absurd hex2 (by simp)
      · rename_i name2 num2 rest2 hex2
        rw [hex] at hex2
        simp only [Option.some.injEq, Prod.mk.injEq] at hex2
        obtain ⟨e1, e2, e3⟩ := hex2
        subst e1; subst e2; subst e3
        rfl
    · rintro ⟨-, hg⟩
      rw [List.getD_cons_succ] at hg
      exact h36 hg

/-- On ASCII bytes the rune scanner advances one byte at a time. -/
theorem identSpan_ascii_cons (U : UnicodeClasses) (c : Nat) (rest : List Nat)
    (h : c < 128) :
    identSpan U (c :: rest) = if identRune U c then 1 + identSpan U rest else 0 := by
  rw [identSpan.eq_def]
  have hd : decodeRune (c :: rest) = (c, 1) := by simp [decodeRune, h]
  simp [hd]

/-- The decimal value of a digit string, read most significant digit
first. -/
def specDecimal (name : List Nat) : Int :=
  name.foldl (fun (a : Int) (c : Nat) => a * 10 + ((c : Int) - 48)) 0

/-- A nonnegative outcome of the digit-folding loop means every byte was an
ASCII digit. -/
theorem parseNumLoop_nonneg_digits (name : List Nat) :
    ∀ acc : Int, 0 ≤ parseNumLoop name acc → ∀ c ∈ name, 48 ≤ c ∧ c ≤ 57 := by
  induction name with
  | nil => intro acc _ c hc; simp at hc
  | cons c rest ih =>
    intro acc h x hx
    rw [parseNumLoop] at h
    split at h
    · norm_num at h
    · rename_i hcond
      push_neg at hcond
      rcases List.mem_cons.mp hx with hx | hx
      · subst hx
        omega
      · exact ih _ h x hx

/-- When the digit-folding loop succeeds it computes the left fold of the
decimal digits. -/
theorem parseNumLoop_eq_foldl (name : List Nat) :
    ∀ acc : Int, 0 ≤ parseNumLoop name acc →
      parseNumLoop name acc =
        name.foldl (fun (a : Int) (c : Nat) => a * 10 + ((c : Int) - 48)) acc := by
  induction name with
  | nil => intro acc _; simp [parseNumLoop]
  | cons c rest ih =>
    intro acc h
    rw [parseNumLoop] at h ⊢
    split at h
    · norm_num at h
    · rename_i hcond
      rw [if_neg hcond]
      simp only [List.foldl_cons]
      exact ih _ h

/-- The digit-folding loop succeeds on an all-digit name whenever the
accumulated value can never reach the 100000000 guard. -/
theorem parseNumLoop_ok (name : List Nat) :
    ∀ acc : Int, (∀ c ∈ name, 48 ≤ c ∧ c ≤ 57) → 0 ≤ acc →
      (acc + 1) * 10 ^ name.length ≤ 10 ^ 9 → 0 ≤ parseNumLoop name acc := by
  induction name with
  | nil => intro acc _ ha _; simpa [parseNumLoop] using ha
  | cons c rest ih =>
    intro acc hd ha hbound
    have hc := hd c (by simp)
    have hpow : (1 : Int) ≤ 10 ^ rest.length := one_le_pow₀ (by norm_num)
    have hpow0 : (0 : Int) < 10 ^ rest.length := by positivity
    have hstep : (acc + 1) * 10 ^ (rest.length + 1) =
        ((acc + 1) * 10) * 10 ^ rest.length := by
      rw [pow_succ]; ring
    have hacc : acc < 100000000 := by
      have h1 : (acc + 1) * 10 * 10 ^ rest.length ≤ 10 ^ 9 := by
        rw [← hstep]
        simpa using hbound
      have h2 : (acc + 1) * 10 ≤ 10 ^ 9 := by
        nlinarith
      norm_num at h2
      omega
    rw [parseNumLoop, if_neg (by push_neg; exact ⟨hc.1, hc.2, hacc⟩)]
    apply ih
    · intro x hx; exact hd x (by simp [hx])
    · omega
    · have hle : acc * 10 + ((c : Int) - 48) + 1 ≤ (acc + 1) * 10 := by
        have : (c : Int) ≤ 57 := by exact_mod_cast hc.2
        omega
      calc (acc * 10 + ((c : Int) - 48) + 1) * 10 ^ rest.length
          ≤ (acc + 1) * 10 * 10 ^ rest.length := by
            apply mul_le_mul_of_nonneg_right hle (le_of_lt hpow0)
        _ = (acc + 1) * 10 ^ (rest.length + 1) := by rw [hstep]
        _ ≤ 10 ^ 9 := by simpa using hbound

/-- Once the accumulator has reached 10 to the j with at least 9 minus j
digits still to fold, the loop is certain to hit the guard and give up. -/
theorem parseNumLoop_big_fail (name : List Nat) :
    ∀ (acc : Int) (j : Nat), j ≤ 8 → (10 : Int) ^ j ≤ acc →
      9 ≤ j + name.length → parseNumLoop name acc = -1 := by
  induction name with
  | nil => intro acc j hj _ hlen; simp at hlen; omega
  | cons c rest ih =>
    intro acc j hj hacc hlen
    rw [parseNumLoop]
    split
    · rfl
    · rename_i hcond
      push_neg at hcond
      obtain ⟨h1, h2, h3⟩ := hcond
      by_cases hj8 : j = 8
      · subst hj8
        norm_num at hacc
        omega
      · apply ih (acc * 10 + ((c : Int) - 48)) (j + 1) (by omega)
        · have hps : (10 : Int) ^ (j + 1) = 10 ^ j * 10 := pow_succ 10 j
          have hc48 : (48 : Int) ≤ (c : Int) := by exact_mod_cast h1
          rw [hps]
          nlinarith
        · simp only [List.length_cons] at hlen
          omega

/-- Characterisation of the numeric test of extract: a name parses as a
number exactly when it is all ASCII digits, has no leading zero unless it is
a single digit, and is at most nine digits long. -/
theorem parseNum_nonneg_iff (name : List Nat) (hne : name ≠ []) :
    0 ≤ parseNum name ↔
      ((∀ c ∈ name, 48 ≤ c ∧ c ≤ 57) ∧
        (name.getD 0 0 ≠ 48 ∨ name.length = 1) ∧ name.length ≤ 9) := by
  have hlen1 : 1 ≤ name.length := by
    cases name with
    | nil => exact absurd rfl hne
    | cons c rest => simp
  by_cases hg : name.getD 0 0 = 48 ∧ 1 < name.length
  · have hpn : parseNum name = -1 := by
      simp only [parseNum]
      exact if_pos hg
    rw [hpn]
    constructor
    · intro h; norm_num at h
    · rintro ⟨-, hnl, -⟩
      rcases hnl with hnl | hnl
      · exact absurd hg.1 hnl
      · omega
  · have hpn : parseNum name = parseNumLoop name 0 := by
      simp only [parseNum]
      exact if_neg hg
    rw [hpn]
    push_neg at hg
    constructor
    · intro h
      have hd := parseNumLoop_nonneg_digits name 0 h
      refine ⟨hd, ?_, ?_⟩
      · by_cases h48 : name.getD 0 0 = 48
        · exact Or.inr (by omega)
        · exact Or.inl h48
      · by_contra hlen
        push_neg at hlen
        cases name with
        | nil => exact hne rfl
        | cons c rest =>
          have hc : 48 ≤ c ∧ c ≤ 57 := hd c (by simp)
          have hc48 : c ≠ 48 := by
            have := hg
            simp only [List.getD_cons_zero, List.length_cons] at this
            intro hcc
            have := this hcc
            simp only [List.length_cons] at hlen
            omega
          have hfirst : parseNumLoop (c :: rest) 0 =
              parseNumLoop rest (0 * 10 + ((c : Int) - 48)) := by
            rw [parseNumLoop]
            rw [if_neg (by push_neg; refine ⟨hc.1, hc.2, by norm_num⟩)]
          have hfail : parseNumLoop rest (0 * 10 + ((c : Int) - 48)) = -1 := by
            apply parseNumLoop_big_fail rest _ 0 (by norm_num)
            · have : (49 : Int) ≤ (c : Int) := by
                have h1 : (48 : Int) ≤ (c : Int) := by exact_mod_cast hc.1
                have h2 : (c : Int) ≠ 48 := by exact_mod_cast hc48
                omega
              norm_num
              omega
            · simp only [List.length_cons] at hlen
              omega
          rw [hfirst, hfail] at h
          norm_num at h
    · rintro ⟨hd, -, hlen⟩
      apply parseNumLoop_ok name 0 hd le_rfl
      have : (10 : Int) ^ name.length ≤ 10 ^ 9 :=
        pow_le_pow_right₀ (by norm_num) hlen
      simpa using this

/-- When the numeric test succeeds, the parsed number is the decimal value
of the digits. -/
theorem parseNum_value (name : List Nat) (h : 0 ≤ parseNum name) :
    parseNum name = specDecimal name := by
  simp only [parseNum] at h ⊢
  split at h
  · norm_num at h
  · rename_i hg
    rw [if_neg hg]
    rw [specDecimal]
    exact parseNumLoop_eq_foldl name 0 h

/-- The rune scanner finds nothing in an empty string. -/
theorem identSpan_nil (U : UnicodeClasses) : identSpan U [] = 0 := by
  rw [identSpan.eq_def]

/-- A successful extract returns a nonempty name together with its number
interpretation. -/
theorem extract_num_name {U : UnicodeClasses} {s name : List Nat} {num : Int}
    {rest : List Nat} (h : extract U s = some (name, num, rest)) :
    num = parseNum name ∧ name ≠ [] := by
  unfold extract at h
  by_cases h0 : s.length < 2 ∨ s.getD 0 0 ≠ 36
  · rw [if_pos h0] at h; exact absurd h (by simp)
  rw [if_neg h0] at h
  dsimp only at h
  by_cases hb : s.getD 1 0 = 123
  · simp only [if_pos hb] at h
    split at h
    · exact absurd h (by simp)
    rename_i hi
    split at h
    · exact absurd h (by simp)
    simp only [Option.some.injEq, Prod.mk.injEq] at h
    obtain ⟨hname, hnum, -⟩ := h
    subst hname
    refine ⟨hnum.symm, ?_⟩
    intro hnil
    rw [List.take_eq_nil_iff] at hnil
    rcases hnil with h1 | h1
    · exact hi h1
    · rw [h1, identSpan_nil] at hi
      exact hi rfl
  · simp only [if_neg hb] at h
    split at h
    · exact absurd h (by simp)
    rename_i hi
    simp only [Option.some.injEq, Prod.mk.injEq] at h
    obtain ⟨hname, hnum, -⟩ := h
    subst hname
    refine ⟨hnum.symm, ?_⟩
    intro hnil
    rw [List.take_eq_nil_iff] at hnil
    rcases hnil with h1 | h1
    · exact hi h1
    · rw [h1, identSpan_nil] at hi
      exact hi rfl

/-- Claim C3, amended with the at-most-nine-digits bound forced by the
counterexample: for a reference extracted from the template, the reference
is numeric exactly when its name is all decimal digits with no leading zero
(unless it is a single digit) and is at most nine digits long; a numeric
reference addresses the capture whose index is the decimal value of the
digits, and expand dispatches a numeric reference to positional resolution
and every other reference to name lookup over the name table. -/
theorem claim_C3 (U : UnicodeClasses) (re : Regexp) (dst t src : List Nat)
    (m : List Int) (name : List Nat) (num : Int) (rest : List Nat)
    (h36 : t.getD 0 0 ≠ 36)
    (hex : extract U (36 :: t) = some (name, num, rest)) :
    (0 ≤ num ↔
      ((∀ c ∈ name, 48 ≤ c ∧ c ≤ 57) ∧
        (name.getD 0 0 ≠ 48 ∨ name.length = 1) ∧ name.length ≤ 9)) ∧
    (0 ≤ num → num = specDecimal name) ∧
    (0 ≤ num →
      expand U re dst (36 :: t) src m =
        expand U re
          (if 2 * num.toNat + 1 < m.length ∧ 0 ≤ m.getD (2 * num.toNat) 0 then
            dst ++ goSlice src (m.getD (2 * num.toNat) 0) (m.getD (2 * num.toNat + 1) 0)
          else dst) rest src m) ∧
    (num < 0 →
      expand U re dst (36 :: t) src m =
        expand U re
          (match nameLookupFrom m name re.SubExpNames 0 with
            | some i => dst ++ goSlice src (m.getD (2 * i) 0) (m.getD (2 * i + 1) 0)
            | none => dst) rest src m) := by
  obtain ⟨hnum, hne⟩ := extract_num_name hex
  subst hnum
  refine ⟨parseNum_nonneg_iff name hne, parseNum_value name, ?_, ?_⟩
  · intro h
    rw [expand_ref U re dst t src m name (parseNum name) rest h36 hex]
    rw [resolveRef, if_pos h]
  · intro h
    rw [expand_ref U re dst t src m name (parseNum name) rest h36 hex]
    rw [resolveRef, if_neg (not_le.mpr h)]

/-- The ten-digit name of the C3 counterexample. -/
def nameTen : List Nat := [49, 48, 48, 48, 48, 48, 48, 48, 48, 48]

/-- A pattern whose capture 1 is named by the ten decimal digits of
nameTen. -/
def reC3 : Regexp := ⟨⟨fun _ _ _ _ => ExecResult.noMatch, 1, [[], nameTen]⟩⟩

/-- The output claim C3 predicts for a template that is one numeric
reference to capture index k, following the words of claims C3 and C6: the
span of pair k of the record when it fits and participates, nothing
otherwise. -/
def numericRefRenderClaim (src : List Nat) (m : List Int) (k : Nat) : List Nat :=
  if 2 * k + 1 < m.length ∧ 0 ≤ m.getD (2 * k) 0 then
    goSlice src (m.getD (2 * k) 0) (m.getD (2 * k + 1) 0)
  else []

/-- Counterexample to claim C3 as stated: the ten-digit name 1000000000 is
all decimal digits with no leading zero, so the claim puts it in the numeric
class, addressing capture index 1000000000, which is out of range for the
record, so the claimed rendering is empty; the code instead resolves it by
name lookup and renders the span of capture 1. -/
theorem claim_C3_counterexample :
    (∀ c ∈ nameTen, 48 ≤ c ∧ c ≤ 57) ∧ nameTen.getD 0 0 ≠ 48 ∧
    specDecimal nameTen = 1000000000 ∧
    extract asciiU (36 :: nameTen) = some (nameTen, -1, []) ∧
    expand asciiU reC3 [] (36 :: nameTen) [97, 98] [0, 2, 0, 1] = [97] ∧
    numericRefRenderClaim [97, 98] [0, 2, 0, 1] 1000000000 = [] ∧
    ([97] : List Nat) ≠ [] := by
  have hex : extract asciiU (36 :: nameTen) = some (nameTen, -1, []) := by
    simp [extract, nameTen, identSpan_ascii_cons, identSpan_nil, identRune,
      asciiU, parseNum, parseNumLoop, List.take_succ_cons, List.drop_succ_cons]
  refine ⟨by decide, by decide, by decide, hex, ?_, by decide, by decide⟩
  rw [expand_ref asciiU reC3 [] nameTen [97, 98] [0, 2, 0, 1] nameTen (-1) []
    (by decide) hex]
  rw [expand_nil]
  simp [resolveRef, nameLookupFrom, nameTen, reC3, Regexp.SubExpNames, goSlice]

/-- A dollar followed by a byte other than an open brace whose decoded rune
is not a name rune extracts as malformed. -/
theorem extract_cons_nonident (U : UnicodeClasses) (c : Nat) (t : List Nat)
    (hc : c ≠ 123) (hr : identRune U (decodeRune (c :: t)).1 = false) :
    extract U (36 :: c :: t) = none := by
  have hspan : identSpan U (c :: t) = 0 := by
    rw [identSpan.eq_def]
    simp [hr]
  unfold extract
  rw [if_neg (by simp)]
  dsimp only
  simp only [List.getD_cons_succ, List.getD_cons_zero, List.drop_succ_cons,
    List.drop_zero]
  rw [if_neg hc]
  rw [if_pos hspan]

/-- Claim C5, amended to except the open brace (which opens the brace form
of a reference) from the malformed case: a double dollar emits exactly one
literal dollar; a dollar at the end of the template, or followed by a byte
other than dollar and open brace whose rune is not a name character, emits
one literal dollar and scanning resumes at the byte right after the dollar
without consuming it. -/
theorem claim_C5 (U : UnicodeClasses) (re : Regexp) (dst src : List Nat)
    (m : List Int) :
    (∀ t, expand U re dst (36 :: 36 :: t) src m =
      expand U re (dst ++ [36]) t src m) ∧
    (expand U re dst [36] src m = dst ++ [36]) ∧
    (∀ c t, c ≠ 36 → c ≠ 123 → identRune U (decodeRune (c :: t)).1 = false →
      expand U re dst (36 :: c :: t) src m =
        expand U re (dst ++ [36]) (c :: t) src m) := by
  refine ⟨fun t => expand_dollar_dollar U re dst t src m, ?_, ?_⟩
  · rw [expand_malformed U re dst [] src m (by decide) (by simp [extract])]
    exact expand_nil U re (dst ++ [36]) src m
  · intro c t hc36 hc123 hr
    exact expand_malformed U re dst (c :: t) src m
      (by simpa using hc36) (extract_cons_nonident U c t hc123 hr)

/-- Witness for claim C5: a dollar followed by a dot is malformed, emits one
literal dollar and leaves the dot to the next literal round. -/
theorem claim_C5_witness :
    expand asciiU reC3 [] [36, 46] [97, 98] [0, 1] =
      expand asciiU reC3 [36] [46] [97, 98] [0, 1] :=
  (claim_C5 asciiU reC3 [] [97, 98] [0, 1]).2.2 46 [] (by decide) (by decide)
    (by decide)

/-- Counterexample to claim C5 as stated: the open brace is a non-identifier
character, so the claim classifies a dollar followed by it as malformed and
predicts the literal output dollar-brace-0-brace; the code instead parses
the brace reference and renders the whole-match span. -/
theorem claim_C5_counterexample :
    identRune asciiU 123 = false ∧
    expand asciiU reC3 [] [36, 123, 48, 125] [97, 98] [0, 1] = [97] ∧
    ([97] : List Nat) ≠ [36, 123, 48, 125] := by
  have hex : extract asciiU [36, 123, 48, 125] = some ([48], 0, []) := by
    simp [extract, identSpan_ascii_cons, identSpan_nil, identRune, asciiU,
      parseNum, parseNumLoop, List.take_succ_cons, List.drop_succ_cons]
  refine ⟨by decide, ?_, by decide⟩
  rw [expand_ref asciiU reC3 [] [123, 48, 125] [97, 98] [0, 1] [48] 0 []
    (by decide) hex]
  rw [expand_nil]
  simp [resolveRef, goSlice]

/-- Claim C6: when reference resolution fails — a numeric index out of range
for the record or pointing at a pair that did not participate, or a name
found nowhere suitable in the table — expand appends nothing for the
reference and scanning continues normally after it. -/
theorem claim_C6 (U : UnicodeClasses) (re : Regexp) (dst t src : List Nat)
    (m : List Int) (name : List Nat) (num : Int) (rest : List Nat)
    (h36 : t.getD 0 0 ≠ 36)
    (hex : extract U (36 :: t) = some (name, num, rest)) :
    (0 ≤ num → ¬(2 * num.toNat + 1 < m.length ∧ 0 ≤ m.getD (2 * num.toNat) 0) →
      expand U re dst (36 :: t) src m = expand U re dst rest src m) ∧
    (num < 0 → nameLookupFrom m name re.SubExpNames 0 = none →
      expand U re dst (36 :: t) src m = expand U re dst rest src m) := by
  constructor
  · intro h hfail
    rw [expand_ref U re dst t src m name num rest h36 hex]
    rw [resolveRef, if_pos h, if_neg hfail]
  · intro h hnone
    rw [expand_ref U re dst t src m name num rest h36 hex]
    rw [resolveRef, if_neg (not_le.mpr h)]
    simp only [hnone]

/-- Witness for claim C6: the numeric reference 9 is out of range for a
one-pair record, so the template dollar-9 renders to nothing. -/
theorem claim_C6_witness :
    expand asciiU reC3 [] [36, 57] [97, 98] [0, 1] =
      expand asciiU reC3 [] [] [97, 98] [0, 1] := by
  have hex : extract asciiU [36, 57] = some ([57], 9, []) := by
    simp [extract, identSpan_ascii_cons, identSpan_nil, identRune, asciiU,
      parseNum, parseNumLoop, List.take_succ_cons, List.drop_succ_cons]
  exact (claim_C6 asciiU reC3 [] [57] [97, 98] [0, 1] [57] 9 []
    (by decide) hex).1 (by decide) (by decide)

/-- The lookup loop returns the least qualifying index at or after its
starting index: its name matches, its pair fits the record with nonnegative
start, and no earlier index at or after the start qualifies. -/
theorem nameLookupFrom_spec (m : List Int) (name : List Nat) :
    ∀ (names : List (List Nat)) (i0 idx : Nat),
      nameLookupFrom m name names i0 = some idx →
      i0 ≤ idx ∧ idx - i0 < names.length ∧ names.getD (idx - i0) [] = name ∧
        (2 * idx + 1 < m.length ∧ 0 ≤ m.getD (2 * idx) 0) ∧
        ∀ j, i0 ≤ j → j < idx →
          ¬(names.getD (j - i0) [] = name ∧ 2 * j + 1 < m.length ∧
            0 ≤ m.getD (2 * j) 0) := by
  intro names
  induction names with
  | nil => intro i0 idx h; simp [nameLookupFrom] at h
  | cons namei restNames ih =>
    intro i0 idx h
    rw [nameLookupFrom] at h
    split at h
    · rename_i hcond
      simp only [Option.some.injEq] at h
      subst h
      refine ⟨le_rfl, by simp, ?_, ⟨hcond.2.1, hcond.2.2⟩, ?_⟩
      · simp [hcond.1.symm]
      · intro j hj1 hj2
        omega
    · rename_i hcond
      obtain ⟨h1, h2, h3, h4, h5⟩ := ih (i0 + 1) idx h
      refine ⟨by omega, by simp; omega, ?_, h4, ?_⟩
      · have hsub : idx - i0 = (idx - (i0 + 1)) + 1 := by omega
        rw [hsub, List.getD_cons_succ]
        exact h3
      · intro j hj1 hj2
        by_cases hji : j = i0
        · subst hji
          simp only [Nat.sub_self, List.getD_cons_zero]
          intro hc
          exact hcond ⟨hc.1.symm, hc.2.1, hc.2.2⟩
        · have hsub : j - i0 = (j - (i0 + 1)) + 1 := by omega
          rw [hsub, List.getD_cons_succ]
          exact h5 j (by omega) hj2

/-- Claim C4: for a record whose pairs are either the sentinel or
participating with nonnegative offsets, a named reference is resolved by
scanning the name table in ascending index order and substituting the span
of the first index whose name equals the reference, whose pair fits the
record, and whose span participated; no smaller index qualifies, also when
several indices carry the same name. -/
theorem claim_C4 (U : UnicodeClasses) (re : Regexp) (dst t src : List Nat)
    (m : List Int) (name : List Nat) (num : Int) (rest : List Nat) (idx : Nat)
    (hwf : ∀ j, 2 * j + 1 < m.length →
      (m.getD (2 * j) 0 = -1 ∧ m.getD (2 * j + 1) 0 = -1) ∨
        (0 ≤ m.getD (2 * j) 0 ∧ 0 ≤ m.getD (2 * j + 1) 0))
    (h36 : t.getD 0 0 ≠ 36)
    (hex : extract U (36 :: t) = some (name, num, rest))
    (hnum : num < 0)
    (hfound : nameLookupFrom m name re.SubExpNames 0 = some idx) :
    expand U re dst (36 :: t) src m =
      expand U re (dst ++ goSlice src (m.getD (2 * idx) 0)
        (m.getD (2 * idx + 1) 0)) rest src m ∧
    re.SubExpNames.getD idx [] = name ∧
    2 * idx + 1 < m.length ∧
    ¬(m.getD (2 * idx) 0 = -1 ∧ m.getD (2 * idx + 1) 0 = -1) ∧
    ∀ j < idx, ¬(re.SubExpNames.getD j [] = name ∧ 2 * j + 1 < m.length ∧
      ¬(m.getD (2 * j) 0 = -1 ∧ m.getD (2 * j + 1) 0 = -1)) := by
  obtain ⟨-, -, hname, ⟨hfit, hge⟩, hmin⟩ :=
    nameLookupFrom_spec m name re.SubExpNames 0 idx hfound
  rw [Nat.sub_zero] at hname
  refine ⟨?_, hname, hfit, ?_, ?_⟩
  · rw [expand_ref U re dst t src m name num rest h36 hex]
    rw [resolveRef, if_neg (not_le.mpr hnum)]
    simp only [hfound]
  · rintro ⟨hs, -⟩
    rw [hs] at hge
    norm_num at hge
  · intro j hj hc
    obtain ⟨hnamej, hfitj, hnotsent⟩ := hc
    rcases hwf j hfitj with hsent | hpos
    · exact hnotsent hsent
    · have := hmin j (Nat.zero_le j) hj
      rw [Nat.sub_zero] at this
      exact this ⟨hnamej, hfitj, hpos.1⟩

/-- Name table with the name x at both index 1 and index 2, for the C4
witness. -/
def reC4 : Regexp := ⟨⟨fun _ _ _ _ => ExecResult.noMatch, 2, [[], [120], [120]]⟩⟩

/-- Match record for the C4 witness: pair 1 is the sentinel, pair 2
participates. -/
def mC4 : List Int := [0, 2, -1, -1, 0, 1]

/-- Witness for claim C4: with the name x at indices 1 and 2 and index 1 not
participating, the reference dollar-x resolves to index 2. -/
theorem claim_C4_witness :
    expand asciiU reC4 [] [36, 120] [97, 98] mC4 =
      expand asciiU reC4 ([] ++ goSlice [97, 98] (mC4.getD (2 * 2) 0)
        (mC4.getD (2 * 2 + 1) 0)) [] [97, 98] mC4 ∧
    reC4.SubExpNames.getD 2 [] = [120] ∧
    2 * 2 + 1 < mC4.length ∧
    ¬(mC4.getD (2 * 2) 0 = -1 ∧ mC4.getD (2 * 2 + 1) 0 = -1) ∧
    ∀ j < 2, ¬(reC4.SubExpNames.getD j [] = [120] ∧ 2 * j + 1 < mC4.length ∧
      ¬(mC4.getD (2 * j) 0 = -1 ∧ mC4.getD (2 * j + 1) 0 = -1)) := by
  have hex : extract asciiU [36, 120] = some ([120], -1, []) := by
    simp [extract, identSpan_ascii_cons, identSpan_nil, identRune, asciiU,
      parseNum, parseNumLoop, List.take_succ_cons, List.drop_succ_cons]
  exact claim_C4 asciiU reC4 [] [120] [97, 98] mC4 [120] (-1) [] 2
    (by intro j hj; simp only [mC4, List.length_cons, List.length_nil] at hj;
        have hj2 : j ≤ 2 := by omega
        interval_cases j <;> decide)
    (by decide) hex (by decide) (by decide)

/-- Witness for claim C3: the single digit 9 extracted from the template
dollar-9 is classified as numeric. -/
theorem claim_C3_witness :
    (0 ≤ (9 : Int) ↔
      ((∀ c ∈ ([57] : List Nat), 48 ≤ c ∧ c ≤ 57) ∧
        (([57] : List Nat).getD 0 0 ≠ 48 ∨ ([57] : List Nat).length = 1) ∧
        ([57] : List Nat).length ≤ 9)) := by
  have hex : extract asciiU [36, 57] = some ([57], 9, []) := by
    simp [extract, identSpan_ascii_cons, identSpan_nil, identRune, asciiU,
      parseNum, parseNumLoop, List.take_succ_cons, List.drop_succ_cons]
  exact (claim_C3 asciiU reC3 [] [57] [97, 98] [0, 1] [57] 9 []
    (by decide) hex).1

/-- Record of the zero-width scan at a given offset. -/
theorem zeroWidthAll_getD (L i : Nat) (h : i ≤ L) :
    (zeroWidthAll L).getD i [] = [(i : Int), (i : Int)] := by
  rw [zeroWidthAll, List.getD_eq_getElem?_getD, List.getElem?_map,
    List.getElem?_range (by omega)]
  simp

/-- Core of claim C1 for FindAllIndex: once the first zero-width match has
been recorded and NotEmptyAtStart is set, the scan appends one zero-width
record per remaining offset and stops after the final one. -/
theorem emptyScanIndexAux (re : Regexp) (b : List Nat)
    (ht : ∀ start : Int, 0 ≤ start → start + 1 ≤ (b.length : Int) →
      re.pcre.exec b start true 3 = ExecResult.ok [start + 1, start + 1, 0])
    (hnm : ∀ start : Int, 0 ≤ start → (b.length : Int) < start + 1 →
      re.pcre.exec b start true 3 = ExecResult.noMatch) :
    ∀ (fuel s : Nat) (n : Int) (locs : List (List Int)),
      n < 0 → s ≤ b.length → b.length - s + 1 ≤ fuel →
      findAllIndexAux re b fuel (s : Int) n true locs =
        some (Except.ok (locs ++
          (List.range' (s + 1) (b.length - s)).map
            (fun (k : Nat) => ([(k : Int), (k : Int)] : List Int)))) := by
  intro fuel
  induction fuel with
  | zero => intro s n locs _ _ hfl; omega
  | succ fuel ih =>
    intro s n locs hn hs hfl
    rw [findAllIndexAux]
    rw [if_pos ⟨by exact_mod_cast hs, by omega⟩]
    by_cases hend : s = b.length
    · rw [hnm (s : Int) (by positivity) (by exact_mod_cast (by omega : b.length < s + 1))]
      rw [hend]
      simp
    · have hlt : s < b.length := by omega
      rw [ht (s : Int) (by positivity) (by exact_mod_cast (by omega : s + 1 ≤ b.length))]
      dsimp only
      simp only [List.getD_cons_succ, List.getD_cons_zero]
      have hih := ih (s + 1) (n - 1) (locs ++ [[(s : Int) + 1, (s : Int) + 1]])
        (by omega) (by omega) (by omega)
      push_cast at hih
      rw [hih]
      rw [List.append_assoc]
      have hsplit : b.length - s = (b.length - s - 1) + 1 := by omega
      rw [hsplit, List.range'_succ]
      simp only [List.map_cons, List.singleton_append, List.cons_append]
      push_cast
      simp [Nat.sub_sub]

/-- Core of claim C1 for FindAllSubmatchIndex on a pattern with no capture
groups: identical scan, records taken as the length-two prefix of the
ovector. -/
theorem emptyScanSubAux (re : Regexp) (b : List Nat)
    (hcc : re.pcre.captureCount = 0)
    (ht : ∀ start : Int, 0 ≤ start → start + 1 ≤ (b.length : Int) →
      re.pcre.exec b start true 3 = ExecResult.ok [start + 1, start + 1, 0])
    (hnm : ∀ start : Int, 0 ≤ start → (b.length : Int) < start + 1 →
      re.pcre.exec b start true 3 = ExecResult.noMatch) :
    ∀ (fuel s : Nat) (n : Int) (locs : List (List Int)),
      n < 0 → s ≤ b.length → b.length - s + 1 ≤ fuel →
      findAllSubmatchIndexAux re b fuel (s : Int) n true locs =
        some (Except.ok (locs ++
          (List.range' (s + 1) (b.length - s)).map
            (fun (k : Nat) => ([(k : Int), (k : Int)] : List Int)))) := by
  intro fuel
  induction fuel with
  | zero => intro s n locs _ _ hfl; omega
  | succ fuel ih =>
    intro s n locs hn hs hfl
    rw [findAllSubmatchIndexAux]
    rw [if_pos ⟨by exact_mod_cast hs, by omega⟩]
    simp only [hcc]
    norm_num
    by_cases hend : s = b.length
    · rw [hnm (s : Int) (by positivity) (by exact_mod_cast (by omega : b.length < s + 1))]
      rw [hend]
      simp
    · have hlt : s < b.length := by omega
      rw [ht (s : Int) (by positivity) (by exact_mod_cast (by omega : s + 1 ≤ b.length))]
      dsimp only
      simp only [List.getD_cons_succ, List.getD_cons_zero, List.take_succ_cons,
        List.take_zero, List.getElem?_cons_succ, List.getElem?_cons_zero,
        Option.getD_some]
      have hih := ih (s + 1) (n - 1) (locs ++ [[(s : Int) + 1, (s : Int) + 1]])
        (by omega) (by omega) (by omega)
      push_cast at hih
      rw [hih]
      rw [List.append_assoc]
      have hsplit : b.length - s = (b.length - s - 1) + 1 := by omega
      rw [hsplit, List.range'_succ]
      simp only [List.map_cons, List.singleton_append, List.cons_append]
      push_cast
      simp [Nat.sub_sub]

/-- Claim C1: against a matcher that matches the empty string, and only the
empty string, at every position — reporting, under NotEmptyAtStart, the
empty match at the following position instead — both findAll drivers with
unbounded budget terminate within length plus two loop rounds and return
exactly one zero-width record per offset 0..len, at strictly increasing
start offsets. -/
theorem claim_C1 (re : Regexp) (b : List Nat) (n : Int) (fuel : Nat)
    (hcc : re.pcre.captureCount = 0)
    (hf : ∀ start : Int, 0 ≤ start → start ≤ (b.length : Int) →
      re.pcre.exec b start false 3 = ExecResult.ok [start, start, 0])
    (ht : ∀ start : Int, 0 ≤ start → start + 1 ≤ (b.length : Int) →
      re.pcre.exec b start true 3 = ExecResult.ok [start + 1, start + 1, 0])
    (hnm : ∀ start : Int, 0 ≤ start → (b.length : Int) < start + 1 →
      re.pcre.exec b start true 3 = ExecResult.noMatch)
    (hn : n < 0) (hfuel : b.length + 2 ≤ fuel) :
    FindAllIndex fuel re b n = some (Except.ok (zeroWidthAll b.length)) ∧
    FindAllSubmatchIndex fuel re b n = some (Except.ok (zeroWidthAll b.length)) ∧
    (zeroWidthAll b.length).length = b.length + 1 ∧
    (∀ i, i + 1 < (zeroWidthAll b.length).length →
      ((zeroWidthAll b.length).getD i []).getD 0 0 <
        ((zeroWidthAll b.length).getD (i + 1) []).getD 0 0) := by
  have hzw : [[(0 : Int), (0 : Int)]] ++
      (List.range' 1 b.length).map
        (fun (k : Nat) => ([(k : Int), (k : Int)] : List Int)) =
      zeroWidthAll b.length := by
    rw [zeroWidthAll, List.range_eq_range', List.range'_succ]
    simp
  refine ⟨?_, ?_, by simp [zeroWidthAll], ?_⟩
  · obtain ⟨f, rfl⟩ : ∃ f, fuel = f + 1 := ⟨fuel - 1, by omega⟩
    rw [FindAllIndex, findAllIndexAux]
    rw [if_pos ⟨by positivity, by omega⟩]
    rw [hf 0 le_rfl (by positivity)]
    dsimp only
    simp only [List.getD_cons_succ, List.getD_cons_zero, List.nil_append]
    have haux := emptyScanIndexAux re b ht hnm f 0 (n - 1)
      [[(0 : Int), (0 : Int)]] (by omega) (by omega) (by omega)
    push_cast at haux
    rw [haux]
    rw [Nat.sub_zero, hzw]
  · obtain ⟨f, rfl⟩ : ∃ f, fuel = f + 1 := ⟨fuel - 1, by omega⟩
    rw [FindAllSubmatchIndex, findAllSubmatchIndexAux]
    rw [if_pos ⟨by positivity, by omega⟩]
    simp only [hcc]
    norm_num
    rw [hf 0 le_rfl (by positivity)]
    dsimp only
    simp only [List.getD_cons_succ, List.getD_cons_zero, List.take_succ_cons,
      List.take_zero, List.getElem?_cons_succ, List.getElem?_cons_zero,
      Option.getD_some, List.nil_append]
    have haux := emptyScanSubAux re b hcc ht hnm f 0 (n - 1)
      [[(0 : Int), (0 : Int)]] (by omega) (by omega) (by omega)
    push_cast at haux
    rw [haux]
    rw [Nat.sub_zero, hzw]
  · intro i hi
    simp only [zeroWidthAll, List.length_map, List.length_range] at hi
    rw [zeroWidthAll_getD b.length i (by omega),
      zeroWidthAll_getD b.length (i + 1) (by omega)]
    simp only [List.getD_cons_zero]
    push_cast
    omega

/-- Witness for claim C1: the empty-everywhere matcher over a two-byte
subject yields the three records (0,0), (1,1), (2,2) in both drivers. -/
theorem claim_C1_witness :
    FindAllIndex 4 ⟨emptyPCRE⟩ [97, 98] (-1) =
      some (Except.ok [[0, 0], [1, 1], [2, 2]]) ∧
    FindAllSubmatchIndex 4 ⟨emptyPCRE⟩ [97, 98] (-1) =
      some (Except.ok [[0, 0], [1, 1], [2, 2]]) := by
  have H := claim_C1 ⟨emptyPCRE⟩ [97, 98] (-1) 4 rfl
    (by intro start h1 h2
        simp only [emptyPCRE, Bool.false_eq_true, if_false]
        rfl)
    (by intro start h1 h2
        simp only [emptyPCRE, if_true]
        rw [if_pos (by exact_mod_cast h2)]
        rfl)
    (by intro start h1 h2
        simp only [emptyPCRE, if_true]
        rw [if_neg (by exact_mod_cast not_le.mpr h2)])
    (by norm_num) (by norm_num)
  exact ⟨H.1.trans (by rfl), H.2.1.trans (by rfl)⟩

/-- Each round of the FindAllIndex loop appends at most one record, so with
a nonnegative budget the output grows by at most the budget. -/
theorem findAllIndexAux_length (re : Regexp) (b : List Nat) :
    ∀ (fuel : Nat) (start n : Int) (opts : Bool) (locs out : List (List Int)),
      0 ≤ n → findAllIndexAux re b fuel start n opts locs =
        some (Except.ok out) → out.length ≤ locs.length + n.toNat := by
  intro fuel
  induction fuel with
  | zero => intro start n opts locs out _ h; exact absurd h (by simp [findAllIndexAux])
  | succ fuel ih =>
    intro start n opts locs out hn h
    rw [findAllIndexAux] at h
    split at h
    · rename_i hcond
      cases hexec : re.pcre.exec b start opts 3 with
      | noMatch =>
        rw [hexec] at h
        simp only [Option.some.injEq, Except.ok.injEq] at h
        subst h
        omega
      | err e =>
        rw [hexec] at h
        simp at h
      | ok oVector =>
        rw [hexec] at h
        dsimp only at h
        have := ih _ _ _ _ _ (by omega) h
        simp only [List.length_append, List.length_cons, List.length_nil] at this
        omega
    · simp only [Option.some.injEq, Except.ok.injEq] at h
      subst h
      omega

/-- Each round of the FindAllSubmatchIndex loop appends at most one record,
so with a nonnegative budget the output grows by at most the budget. -/
theorem findAllSubmatchIndexAux_length (re : Regexp) (b : List Nat) :
    ∀ (fuel : Nat) (start n : Int) (opts : Bool) (locs out : List (List Int)),
      0 ≤ n → findAllSubmatchIndexAux re b fuel start n opts locs =
        some (Except.ok out) → out.length ≤ locs.length + n.toNat := by
  intro fuel
  induction fuel with
  | zero =>
    intro start n opts locs out _ h
    exact absurd h (by simp [findAllSubmatchIndexAux])
  | succ fuel ih =>
    intro start n opts locs out hn h
    rw [findAllSubmatchIndexAux] at h
    split at h
    · rename_i hcond
      cases hexec : re.pcre.exec b start opts ((1 + re.pcre.captureCount) * 3) with
      | noMatch =>
        rw [hexec] at h
        simp only [Option.some.injEq, Except.ok.injEq] at h
        subst h
        omega
      | err e =>
        rw [hexec] at h
        simp at h
      | ok oVector =>
        rw [hexec] at h
        dsimp only at h
        have := ih _ _ _ _ _ (by omega) h
        simp only [List.length_append, List.length_cons, List.length_nil] at this
        omega
    · simp only [Option.some.injEq, Except.ok.injEq] at h
      subst h
      omega

/-- With a negative budget the FindAllIndex loop never consults the budget
value: any two negative budgets scan identically. -/
theorem findAllIndexAux_negEq (re : Regexp) (b : List Nat) :
    ∀ (fuel : Nat) (start : Int) (n nn : Int) (opts : Bool)
      (locs : List (List Int)), n < 0 → nn < 0 →
      findAllIndexAux re b fuel start n opts locs =
        findAllIndexAux re b fuel start nn opts locs := by
  intro fuel
  induction fuel with
  | zero => intro start n nn opts locs _ _; rfl
  | succ fuel ih =>
    intro start n nn opts locs hn hnn
    rw [findAllIndexAux, findAllIndexAux]
    by_cases hs : start ≤ (b.length : Int)
    · rw [if_pos ⟨hs, by omega⟩, if_pos ⟨hs, by omega⟩]
      cases re.pcre.exec b start opts 3 with
      | noMatch => rfl
      | err e => rfl
      | ok oVector => exact ih _ _ _ _ _ (by omega) (by omega)
    · rw [if_neg (by rintro ⟨h, -⟩; exact hs h),
        if_neg (by rintro ⟨h, -⟩; exact hs h)]

/-- With a negative budget the FindAllSubmatchIndex loop never consults the
budget value: any two negative budgets scan identically. -/
theorem findAllSubmatchIndexAux_negEq (re : Regexp) (b : List Nat) :
    ∀ (fuel : Nat) (start : Int) (n nn : Int) (opts : Bool)
      (locs : List (List Int)), n < 0 → nn < 0 →
      findAllSubmatchIndexAux re b fuel start n opts locs =
        findAllSubmatchIndexAux re b fuel start nn opts locs := by
  intro fuel
  induction fuel with
  | zero => intro start n nn opts locs _ _; rfl
  | succ fuel ih =>
    intro start n nn opts locs hn hnn
    rw [findAllSubmatchIndexAux, findAllSubmatchIndexAux]
    by_cases hs : start ≤ (b.length : Int)
    · rw [if_pos ⟨hs, by omega⟩, if_pos ⟨hs, by omega⟩]
      cases re.pcre.exec b start opts ((1 + re.pcre.captureCount) * 3) with
      | noMatch => rfl
      | err e => rfl
      | ok oVector => exact ih _ _ _ _ _ (by omega) (by omega)
    · rw [if_neg (by rintro ⟨h, -⟩; exact hs h),
        if_neg (by rintro ⟨h, -⟩; exact hs h)]

/-- Claim C2: with budget zero both findAll drivers return no matches; with
a positive budget they return at most that many matches; with a negative
budget the scan is unbounded — the result does not depend on which negative
budget was passed. -/
theorem claim_C2 (re : Regexp) (b : List Nat) (fuel : Nat) (n : Int) :
    (n = 0 → 1 ≤ fuel →
      FindAllIndex fuel re b n = some (Except.ok []) ∧
      FindAllSubmatchIndex fuel re b n = some (Except.ok [])) ∧
    (0 < n → ∀ out : List (List Int),
      (FindAllIndex fuel re b n = some (Except.ok out) →
        out.length ≤ n.toNat) ∧
      (FindAllSubmatchIndex fuel re b n = some (Except.ok out) →
        out.length ≤ n.toNat)) ∧
    (n < 0 →
      FindAllIndex fuel re b n = FindAllIndex fuel re b (-1) ∧
      FindAllSubmatchIndex fuel re b n = FindAllSubmatchIndex fuel re b (-1)) := by
  refine ⟨?_, ?_, ?_⟩
  · intro hn hfuel
    subst hn
    obtain ⟨f, rfl⟩ : ∃ f, fuel = f + 1 := ⟨fuel - 1, by omega⟩
    constructor
    · rw [FindAllIndex, findAllIndexAux]
      rw [if_neg (by rintro ⟨-, h⟩; exact h rfl)]
    · rw [FindAllSubmatchIndex, findAllSubmatchIndexAux]
      rw [if_neg (by rintro ⟨-, h⟩; exact h rfl)]
  · intro hn out
    constructor
    · intro h
      have := findAllIndexAux_length re b fuel 0 n false [] out (by omega) h
      simpa using this
    · intro h
      have := findAllSubmatchIndexAux_length re b fuel 0 n false [] out
        (by omega) h
      simpa using this
  · intro hn
    exact ⟨findAllIndexAux_negEq re b fuel 0 n (-1) false [] hn (by norm_num),
      findAllSubmatchIndexAux_negEq re b fuel 0 n (-1) false [] hn (by norm_num)⟩

/-- Witness for claim C2: with budget zero the scan over the
empty-everywhere matcher returns no records. -/
theorem claim_C2_witness :
    FindAllIndex 5 ⟨emptyPCRE⟩ [97, 98] 0 = some (Except.ok []) ∧
    FindAllSubmatchIndex 5 ⟨emptyPCRE⟩ [97, 98] 0 = some (Except.ok []) :=
  (claim_C2 ⟨emptyPCRE⟩ [97, 98] 5 0).1 rfl (by norm_num)

/-- Claim C7: inside either scanning loop, a matcher-reported failure other
than no-match aborts the operation with that error propagated to the caller,
while a no-match report ends the scan successfully with exactly the records
collected so far. -/
theorem claim_C7 (re : Regexp) (b : List Nat) (fuel : Nat) (start n : Int)
    (opts : Bool) (locs : List (List Int)) (e : Int)
    (hs : start ≤ (b.length : Int)) (hn : n ≠ 0) :
    (re.pcre.exec b start opts 3 = ExecResult.err e →
      findAllIndexAux re b (fuel + 1) start n opts locs =
        some (Except.error e)) ∧
    (re.pcre.exec b start opts 3 = ExecResult.noMatch →
      findAllIndexAux re b (fuel + 1) start n opts locs =
        some (Except.ok locs)) ∧
    (re.pcre.exec b start opts ((1 + re.pcre.captureCount) * 3) =
        ExecResult.err e →
      findAllSubmatchIndexAux re b (fuel + 1) start n opts locs =
        some (Except.error e)) ∧
    (re.pcre.exec b start opts ((1 + re.pcre.captureCount) * 3) =
        ExecResult.noMatch →
      findAllSubmatchIndexAux re b (fuel + 1) start n opts locs =
        some (Except.ok locs)) := by
  refine ⟨?_, ?_, ?_, ?_⟩ <;> intro hx
  · rw [findAllIndexAux, if_pos ⟨hs, hn⟩, hx]
  · rw [findAllIndexAux, if_pos ⟨hs, hn⟩, hx]
  · rw [findAllSubmatchIndexAux, if_pos ⟨hs, hn⟩, hx]
  · rw [findAllSubmatchIndexAux, if_pos ⟨hs, hn⟩, hx]

/-- Witness for claim C7: an erroring matcher aborts both loops with its
error, and a never-matching matcher ends them with the records collected so
far. -/
theorem claim_C7_witness :
    findAllIndexAux ⟨errPCRE (-2)⟩ [] 1 0 5 false [] =
      some (Except.error (-2)) ∧
    findAllSubmatchIndexAux ⟨errPCRE (-2)⟩ [] 1 0 5 false [] =
      some (Except.error (-2)) ∧
    findAllIndexAux ⟨noMatchPCRE⟩ [97] 1 0 (-1) false [[9, 9]] =
      some (Except.ok [[9, 9]]) ∧
    findAllSubmatchIndexAux ⟨noMatchPCRE⟩ [97] 1 0 (-1) false [[9, 9]] =
      some (Except.ok [[9, 9]]) :=
  ⟨(claim_C7 ⟨errPCRE (-2)⟩ [] 0 0 5 false [] (-2) (by norm_num)
      (by norm_num)).1 rfl,
    (claim_C7 ⟨errPCRE (-2)⟩ [] 0 0 5 false [] (-2) (by norm_num)
      (by norm_num)).2.2.1 rfl,
    (claim_C7 ⟨noMatchPCRE⟩ [97] 0 0 (-1) false [[9, 9]] 0 (by norm_num)
      (by norm_num)).2.1 rfl,
    (claim_C7 ⟨noMatchPCRE⟩ [97] 0 0 (-1) false [[9, 9]] 0 (by norm_num)
      (by norm_num)).2.2.2 rfl⟩

/-- The pairs invariant of one match record: every (start, end) pair at an
even offset is either the did-not-participate sentinel or lies within the
subject, with start at most end. -/
def PairsWellFormed (len : Nat) (rec : List Int) : Prop :=
  ∀ j, 2 * j + 1 < rec.length →
    (rec.getD (2 * j) 0 = -1 ∧ rec.getD (2 * j + 1) 0 = -1) ∨
      (0 ≤ rec.getD (2 * j) 0 ∧ rec.getD (2 * j) 0 ≤ rec.getD (2 * j + 1) 0 ∧
        rec.getD (2 * j + 1) 0 ≤ (len : Int))

/-- The contract the scanners assume of the external matcher on one subject:
a successful exec (called with a nonnegative start offset and an ovector of
at least the three cells of one pair plus workspace) fills the whole
requested ovector, reports a whole match lying between the start offset and
the end of the subject, and fills every pair as a sentinel or a participating
in-bounds span. -/
def GoodMatcher (p : PCRE) (b : List Nat) : Prop :=
  ∀ (start : Int) (opts : Bool) (size : Nat) (ovec : List Int),
    0 ≤ start → 3 ≤ size → p.exec b start opts size = ExecResult.ok ovec →
    ovec.length = size ∧ start ≤ ovec.getD 0 0 ∧
      ovec.getD 0 0 ≤ ovec.getD 1 0 ∧ ovec.getD 1 0 ≤ (b.length : Int) ∧
      PairsWellFormed b.length ovec

/-- Reading inside the taken prefix is reading the original list. -/
theorem getD_take_lt (l : List Int) (k i : Nat) (d : Int) (h : i < k) :
    (l.take k).getD i d = l.getD i d := by
  rw [List.getD_eq_getElem?_getD, List.getD_eq_getElem?_getD,
    List.getElem?_take, if_pos h]

/-- The chain invariant of a record sequence: every record starts at or
after the cursor left by its predecessor, and each record is ordered. -/
def ChainedFrom : Int → List (List Int) → Prop
  | _, [] => True
  | e, r :: restRecs =>
    e ≤ r.getD 0 0 ∧ r.getD 0 0 ≤ r.getD 1 0 ∧
      ChainedFrom (r.getD 1 0) restRecs

/-- A chained sequence has non-overlapping consecutive records. -/
theorem ChainedFrom_adjacent :
    ∀ (locs : List (List Int)) (e : Int), ChainedFrom e locs →
      ∀ i, i + 1 < locs.length →
        (locs.getD i []).getD 1 0 ≤ (locs.getD (i + 1) []).getD 0 0 := by
  intro locs
  induction locs with
  | nil => intro e _ i hi; simp at hi
  | cons r restRecs ih =>
    intro e h i hi
    obtain ⟨h1, h2, h3⟩ := h
    cases i with
    | zero =>
      cases restRecs with
      | nil => simp at hi
      | cons r2 rest2 =>
        obtain ⟨h31, -, -⟩ := h3
        simpa using h31
    | succ i =>
      simp only [List.getD_cons_succ]
      exact ih (r.getD 1 0) h3 i (by simpa using hi)

/-- Chain invariant of the FindAllIndex loop over a well-behaved matcher:
whatever it appends to the accumulated records is a chained sequence of
well-formed records starting at the current cursor. -/
theorem findAllIndexAux_chain (re : Regexp) (b : List Nat)
    (hgood : GoodMatcher re.pcre b) :
    ∀ (fuel : Nat) (start n : Int) (opts : Bool) (locs out : List (List Int)),
      0 ≤ start →
      findAllIndexAux re b fuel start n opts locs = some (Except.ok out) →
      ∃ tail, out = locs ++ tail ∧ ChainedFrom start tail ∧
        ∀ rec ∈ tail, PairsWellFormed b.length rec := by
  intro fuel
  induction fuel with
  | zero =>
    intro start n opts locs out _ h
    exact absurd h (by simp [findAllIndexAux])
  | succ fuel ih =>
    intro start n opts locs out hstart h
    rw [findAllIndexAux] at h
    split at h
    · cases hexec : re.pcre.exec b start opts 3 with
      | noMatch =>
        rw [hexec] at h
        simp only [Option.some.injEq, Except.ok.injEq] at h
        subst h
        exact ⟨[], by simp, trivial, by simp⟩
      | err e =>
        rw [hexec] at h
        simp at h
      | ok oVector =>
        rw [hexec] at h
        dsimp only at h
        obtain ⟨hlen, h0, h01, h1len, hpw⟩ :=
          hgood start opts 3 oVector hstart le_rfl hexec
        obtain ⟨tail, htail, hchain, hpwAll⟩ :=
          ih _ _ _ _ _ (by omega) h
        refine ⟨[oVector.getD 0 0, oVector.getD 1 0] :: tail, ?_, ?_, ?_⟩
        · rw [htail, List.append_assoc]
          rfl
        · exact ⟨by simpa using h0, by simpa using h01, by simpa using hchain⟩
        · intro rec hrec
          rcases List.mem_cons.mp hrec with hrec | hrec
          · subst hrec
            intro j hj
            simp only [List.length_cons, List.length_nil] at hj
            have hj0 : j = 0 := by omega
            subst hj0
            right
            simp only [List.getD_cons_zero, List.getD_cons_succ]
            exact ⟨le_trans hstart h0, h01, h1len⟩
          · exact hpwAll rec hrec
    · simp only [Option.some.injEq, Except.ok.injEq] at h
      subst h
      exact ⟨[], by simp, trivial, by simp⟩

/-- Chain invariant of the FindAllSubmatchIndex loop over a well-behaved
matcher. -/
theorem findAllSubmatchIndexAux_chain (re : Regexp) (b : List Nat)
    (hgood : GoodMatcher re.pcre b) :
    ∀ (fuel : Nat) (start n : Int) (opts : Bool) (locs out : List (List Int)),
      0 ≤ start →
      findAllSubmatchIndexAux re b fuel start n opts locs =
        some (Except.ok out) →
      ∃ tail, out = locs ++ tail ∧ ChainedFrom start tail ∧
        ∀ rec ∈ tail, PairsWellFormed b.length rec := by
  intro fuel
  induction fuel with
  | zero =>
    intro start n opts locs out _ h
    exact absurd h (by simp [findAllSubmatchIndexAux])
  | succ fuel ih =>
    intro start n opts locs out hstart h
    rw [findAllSubmatchIndexAux] at h
    split at h
    · cases hexec : re.pcre.exec b start opts ((1 + re.pcre.captureCount) * 3) with
      | noMatch =>
        rw [hexec] at h
        simp only [Option.some.injEq, Except.ok.injEq] at h
        subst h
        exact ⟨[], by simp, trivial, by simp⟩
      | err e =>
        rw [hexec] at h
        simp at h
      | ok oVector =>
        rw [hexec] at h
        dsimp only at h
        obtain ⟨hlen, h0, h01, h1len, hpw⟩ :=
          hgood start opts ((1 + re.pcre.captureCount) * 3) oVector hstart
            (by omega) hexec
        obtain ⟨tail, htail, hchain, hpwAll⟩ :=
          ih _ _ _ _ _ (by omega) h
        have hk2 : 2 ≤ (1 + re.pcre.captureCount) * 2 := by omega
        have hget0 : (oVector.take ((1 + re.pcre.captureCount) * 2)).getD 0 0 =
            oVector.getD 0 0 := getD_take_lt _ _ _ _ (by omega)
        have hget1 : (oVector.take ((1 + re.pcre.captureCount) * 2)).getD 1 0 =
            oVector.getD 1 0 := getD_take_lt _ _ _ _ (by omega)
        refine ⟨oVector.take ((1 + re.pcre.captureCount) * 2) :: tail, ?_, ?_, ?_⟩
        · rw [htail, List.append_assoc]
          rfl
        · refine ⟨by rw [hget0]; exact h0, by rw [hget0, hget1]; exact h01, ?_⟩
          rw [hget1]
          exact hchain
        · intro rec hrec
          rcases List.mem_cons.mp hrec with hrec | hrec
          · subst hrec
            intro j hj
            have hjlen : 2 * j + 1 < oVector.length := by
              have := List.length_take_le ((1 + re.pcre.captureCount) * 2) oVector
              omega
            have hjtake : 2 * j + 1 < (1 + re.pcre.captureCount) * 2 := by
              have : (oVector.take ((1 + re.pcre.captureCount) * 2)).length ≤
                  (1 + re.pcre.captureCount) * 2 := List.length_take_le _ _
              omega
            rw [getD_take_lt _ _ _ _ (by omega), getD_take_lt _ _ _ _ hjtake]
            exact hpw j hjlen
          · exact hpwAll rec hrec
    · simp only [Option.some.injEq, Except.ok.injEq] at h
      subst h
      exact ⟨[], by simp, trivial, by simp⟩

/-- Claim C8: over a matcher honouring the exec contract, every sequence of
records one scan produces is non-overlapping — each record starts at or
after the end of its predecessor — and every pair of every record is either
the sentinel or an in-bounds span. -/
theorem claim_C8 (re : Regexp) (b : List Nat) (fuel : Nat) (n : Int)
    (out : List (List Int)) (hgood : GoodMatcher re.pcre b) :
    (FindAllIndex fuel re b n = some (Except.ok out) →
      (∀ i, i + 1 < out.length →
        (out.getD i []).getD 1 0 ≤ (out.getD (i + 1) []).getD 0 0) ∧
      ∀ rec ∈ out, PairsWellFormed b.length rec) ∧
    (FindAllSubmatchIndex fuel re b n = some (Except.ok out) →
      (∀ i, i + 1 < out.length →
        (out.getD i []).getD 1 0 ≤ (out.getD (i + 1) []).getD 0 0) ∧
      ∀ rec ∈ out, PairsWellFormed b.length rec) := by
  constructor
  · intro h
    obtain ⟨tail, htail, hchain, hpw⟩ :=
      findAllIndexAux_chain re b hgood fuel 0 n false [] out le_rfl h
    rw [List.nil_append] at htail
    subst htail
    exact ⟨ChainedFrom_adjacent out 0 hchain, hpw⟩
  · intro h
    obtain ⟨tail, htail, hchain, hpw⟩ :=
      findAllSubmatchIndexAux_chain re b hgood fuel 0 n false [] out le_rfl h
    rw [List.nil_append] at htail
    subst htail
    exact ⟨ChainedFrom_adjacent out 0 hchain, hpw⟩

/-- A matcher that reports the single whole-subject match when asked from
offset zero without NotEmptyAtStart, and no match otherwise. -/
def oneShotPCRE : PCRE where
  exec := fun b start notEmptyAtStart size =>
    if notEmptyAtStart = false ∧ start ≤ 0 then
      ExecResult.ok (([0, (b.length : Int)] ++ List.replicate (size - 2) 0).take size)
    else ExecResult.noMatch
  captureCount := 0
  nameTable := [[]]

/-- Entries of the padded ovector beyond the first pair are zero. -/
theorem pad_getD_ge_two (a b0 : Int) (size i : Nat) (h2 : 2 ≤ i) :
    (([a, b0] ++ List.replicate (size - 2) (0 : Int)).take size).getD i 0 = 0 := by
  rw [List.getD_eq_getElem?_getD, List.getElem?_take]
  by_cases hi : i < size
  · rw [if_pos hi]
    rw [List.getElem?_append_right (by simp; omega)]
    rw [List.getElem?_replicate]
    split <;> rfl
  · rw [if_neg hi]
    rfl

/-- The one-shot matcher honours the exec contract. -/
theorem oneShotPCRE_good (b : List Nat) : GoodMatcher oneShotPCRE b := by
  intro start opts size ovec hstart hsize hexec
  simp only [oneShotPCRE] at hexec
  split at hexec
  · rename_i hcond
    simp only [ExecResult.ok.injEq] at hexec
    subst hexec
    have hget0 : (([0, (b.length : Int)] ++
        List.replicate (size - 2) 0).take size).getD 0 0 = 0 :=
      (getD_take_lt _ _ _ _ (by omega)).trans (by rfl)
    have hget1 : (([0, (b.length : Int)] ++
        List.replicate (size - 2) 0).take size).getD 1 0 = (b.length : Int) :=
      (getD_take_lt _ _ _ _ (by omega)).trans (by rfl)
    refine ⟨?_, ?_, ?_, ?_, ?_⟩
    · rw [List.length_take, List.length_append, List.length_cons,
        List.length_cons, List.length_nil, List.length_replicate]
      omega
    · rw [hget0]; exact hcond.2
    · rw [hget0, hget1]; positivity
    · rw [hget1]
    · intro j hj
      by_cases hj0 : j = 0
      · subst hj0
        right
        rw [hget0, hget1]
        refine ⟨le_rfl, by positivity, le_rfl⟩
      · right
        rw [pad_getD_ge_two _ _ _ _ (by omega),
          pad_getD_ge_two _ _ _ _ (by omega)]
        refine ⟨le_rfl, le_rfl, by positivity⟩
  · simp at hexec

/-- Witness for claim C8: the one-shot matcher over a one-byte subject
yields the single record (0,1), trivially non-overlapping and well
formed. -/
theorem claim_C8_witness :
    FindAllIndex 3 ⟨oneShotPCRE⟩ [97] (-1) = some (Except.ok [[0, 1]]) ∧
    ((∀ i, i + 1 < ([[(0 : Int), 1]]).length →
        (([[(0 : Int), 1]]).getD i []).getD 1 0 ≤
          (([[(0 : Int), 1]]).getD (i + 1) []).getD 0 0) ∧
      ∀ rec ∈ ([[(0 : Int), 1]]), PairsWellFormed 1 rec) := by
  have hscan : FindAllIndex 3 ⟨oneShotPCRE⟩ [97] (-1) =
      some (Except.ok [[0, 1]]) := by rfl
  refine ⟨hscan, ?_⟩
  have H := (claim_C8 ⟨oneShotPCRE⟩ [97] 3 (-1) [[0, 1]]
    (oneShotPCRE_good [97])).1 hscan
  simpa using H

/-- Claim C9: each text-string replace form equals the byte-buffer form
composed with the byte and string conversions — template, literal and
callback forms alike; for the callback form the byte-level callback is the
string callback conjugated by the conversions. -/
theorem claim_C9 (U : UnicodeClasses) (fuel : Nat) (re : Regexp)
    (original replacement : GoString) (f : GoString → GoString) :
    ReplaceAllString U fuel re original replacement =
      stringifyResult (ReplaceAll U fuel re original.data replacement.data) ∧
    ReplaceAllLiteralString fuel re original replacement =
      stringifyResult (ReplaceAllLiteral fuel re original.data
        replacement.data) ∧
    ReplaceAllStringFunc fuel re original f =
      stringifyResult (ReplaceAllFunc fuel re original.data
        (fun bs => (f ⟨bs⟩).data)) :=
  ⟨rfl, rfl, rfl⟩

/-- Claim C10: the public Expand method reports the TODO panic on every
input instead of rendering the template, and ExpandString delegates to
Expand after converting its string arguments to bytes. -/
theorem claim_C10 (re : Regexp) (dst tpl src : List Nat) (m : List Int)
    (tplS srcS : GoString) :
    Expand re dst tpl src m = Except.error "TODO" ∧
    ExpandString re dst tplS srcS m = Expand re dst tplS.data srcS.data m :=
  ⟨rfl, rfl⟩
